import Mathlib

/-!
Verification of the agent revision loop of this repository: the robust JSON
extraction helpers, the record normalizer, the Planner/Reviewer/Supervisor
stage functions, the router and the turn-bounded loop driver, as implemented
in `Assignment2-Langhgraph_Agents/Part3/agent_demo.py` and
`Assignment1-AgenticAI/Part2/agents_demo.py`.

The embedding works over `List Char` for the text-processing code and models
Python dictionaries produced by `json.loads` as a `JValue` tree.  `turn_count`
is a `Nat`; tags and summaries at the workflow level are strings, following
the data model of the specification (the workflow claims depend on tag
values only through their count and blankness).

The file is organised as: definitions (embedded from the source, plus the
serializer model of `json.dumps` used by the round-trip claims), helper
lemmas, then one theorem per specification claim with its witness.
-/

/-- Named characters, used instead of character literals for the JSON
delimiters that the source manipulates. -/
def lbraceC : Char := Char.ofNat 123

/-- Closing brace character. -/
def rbraceC : Char := Char.ofNat 125

/-- Opening bracket character. -/
def lbrackC : Char := Char.ofNat 91

/-- Closing bracket character. -/
def rbrackC : Char := Char.ofNat 93

/-- Double-quote character. -/
def dqC : Char := Char.ofNat 34

/-- Single-quote character. -/
def sqC : Char := Char.ofNat 39

/-- Backslash character. -/
def bslashC : Char := Char.ofNat 92

/-- Backtick character (the markdown fence delimiter). -/
def tickC : Char := Char.ofNat 96

/-- Newline character. -/
def nlC : Char := Char.ofNat 10

/-- Whitespace set of Python `str.strip()` and of the regex class `\s`
(ASCII part): space, tab, newline, carriage return, vertical tab, form feed. -/
def isPyWs (c : Char) : Bool :=
  c = ' ' || c = Char.ofNat 9 || c = nlC || c = Char.ofNat 13 ||
  c = Char.ofNat 11 || c = Char.ofNat 12

/-- Python `str.strip()` with no arguments: drop leading and trailing
whitespace. -/
def stripStr (cs : List Char) : List Char :=
  ((cs.dropWhile isPyWs).reverse.dropWhile isPyWs).reverse

/-- Python `str.strip(c)` for a one-character argument: drop every leading and
trailing occurrence of `c`. -/
def stripChar (c : Char) (cs : List Char) : List Char :=
  ((cs.dropWhile (· = c)).reverse.dropWhile (· = c)).reverse

/-- Python `str.split()` with no arguments: split on whitespace runs and drop
empty pieces.  `cur` accumulates the current word reversed. -/
def pyWordsAux (cur : List Char) : List Char → List String
  | [] => if cur.isEmpty then [] else [String.mk cur.reverse]
  | c :: rest =>
    if isPyWs c then
      if cur.isEmpty then pyWordsAux [] rest
      else String.mk cur.reverse :: pyWordsAux [] rest
    else pyWordsAux (c :: cur) rest

/-- The list of whitespace-separated words of a string, as Python
`str.split()` returns it. -/
def pyWords (cs : List Char) : List String := pyWordsAux [] cs

/-- Word count of a summary string, as the source computes it with
`len(summary.split())`. -/
def word_count (s : String) : Nat := (pyWords s.data).length

/-- Python `str.lower()` for the ASCII strings this program handles. -/
def pyLower (s : String) : String := String.mk (s.data.map Char.toLower)

/-- Python `str.strip()` packaged on `String`. -/
def pyStrip (s : String) : String := String.mk (stripStr s.data)

/-- JSON values as `json.loads` produces them: Python dicts become ordered
field lists (looked up through `dictGet`, last occurrence winning as in a
Python dict built from duplicate keys), numbers keep their raw token text. -/
inductive JValue where
  | null : JValue
  | bool : Bool → JValue
  | num : String → JValue
  | str : String → JValue
  | arr : List JValue → JValue
  | obj : List (String × JValue) → JValue

/-- Python `dict.get` on the field list of a parsed object: the last binding
of a key wins, `none` when the key is absent. -/
def dictGet (fields : List (String × JValue)) (k : String) : Option JValue :=
  match fields with
  | [] => none
  | (k', v) :: rest =>
    match dictGet rest k with
    | some r => some r
    | none => if k' = k then some v else none

/-- Whitespace skipping of the JSON grammar (space, tab, newline, carriage
return), as `json.loads` allows between tokens. -/
def isJsonWs (c : Char) : Bool :=
  c = ' ' || c = Char.ofNat 9 || c = nlC || c = Char.ofNat 13

/-- Drop leading JSON whitespace. -/
def skipWs : List Char → List Char
  | [] => []
  | c :: cs => if isJsonWs c then skipWs cs else c :: cs

/-- One JSON string escape after a backslash.  The `\uXXXX` form is not
modelled; no theorem below feeds it to the parser. -/
def unescapeChar (c : Char) : Option Char :=
  if c = dqC then some dqC
  else if c = bslashC then some bslashC
  else if c = '/' then some '/'
  else if c = 'n' then some nlC
  else if c = 't' then some (Char.ofNat 9)
  else if c = 'r' then some (Char.ofNat 13)
  else if c = 'b' then some (Char.ofNat 8)
  else if c = 'f' then some (Char.ofNat 12)
  else none

/-- Body of a JSON string literal, after the opening quote.  The flag records
a pending backslash.  Returns the decoded content and the characters after
the closing quote. -/
def parseStrBodyAux : Bool → List Char → Option (List Char × List Char)
  | true, [] => none
  | true, e :: rest =>
    match unescapeChar e with
    | none => none
    | some c =>
      match parseStrBodyAux false rest with
      | none => none
      | some (s, r) => some (c :: s, r)
  | false, [] => none
  | false, c :: rest =>
    if c = dqC then some ([], rest)
    else if c = bslashC then parseStrBodyAux true rest
    else if c.toNat < 32 then none
    else
      match parseStrBodyAux false rest with
      | none => none
      | some (s, r) => some (c :: s, r)

/-- Parse a JSON string body (after the opening quote). -/
def parseStrBody (cs : List Char) : Option (List Char × List Char) :=
  parseStrBodyAux false cs

/-- Characters that can occur in a JSON number token. -/
def isNumChar (c : Char) : Bool :=
  c.isDigit || c = '-' || c = '+' || c = '.' || c = 'e' || c = 'E'

/-- A JSON number token, kept as raw text (the claims never depend on numeric
values; this approximates the `json.loads` number grammar). -/
def parseNumber (cs : List Char) : Option (JValue × List Char) :=
  let tok := cs.takeWhile isNumChar
  let rest := cs.dropWhile isNumChar
  if tok.isEmpty then none
  else if tok.any Char.isDigit then some (JValue.num (String.mk tok), rest)
  else none

mutual

/-- Recursive-descent JSON value, mirroring `json.loads`.  The fuel argument
decreases on every call; `jsonLoads` supplies more fuel than the input length,
which is always sufficient. -/
def parseValue : Nat → List Char → Option (JValue × List Char)
  | 0, _ => none
  | Nat.succ fuel, cs =>
    match skipWs cs with
    | [] => none
    | c :: rest =>
      if c = dqC then
        match parseStrBody rest with
        | none => none
        | some (s, r) => some (JValue.str (String.mk s), r)
      else if c = lbrackC then
        match skipWs rest with
        | [] => none
        | c2 :: r2 =>
          if c2 = rbrackC then some (JValue.arr [], r2)
          else
            match parseItems fuel (c2 :: r2) with
            | none => none
            | some (vs, r3) => some (JValue.arr vs, r3)
      else if c = lbraceC then
        match skipWs rest with
        | [] => none
        | c2 :: r2 =>
          if c2 = rbraceC then some (JValue.obj [], r2)
          else
            match parseFields fuel (c2 :: r2) with
            | none => none
            | some (fs, r3) => some (JValue.obj fs, r3)
      else
        match c :: rest with
        | 't' :: 'r' :: 'u' :: 'e' :: r => some (JValue.bool true, r)
        | 'f' :: 'a' :: 'l' :: 's' :: 'e' :: r => some (JValue.bool false, r)
        | 'n' :: 'u' :: 'l' :: 'l' :: r => some (JValue.null, r)
        | cs2 => parseNumber cs2

/-- Comma-separated JSON array items up to the closing bracket. -/
def parseItems : Nat → List Char → Option (List JValue × List Char)
  | 0, _ => none
  | Nat.succ fuel, cs =>
    match parseValue fuel cs with
    | none => none
    | some (v, r) =>
      match skipWs r with
      | [] => none
      | c :: r2 =>
        if c = ',' then
          match parseItems fuel r2 with
          | none => none
          | some (vs, r3) => some (v :: vs, r3)
        else if c = rbrackC then some ([v], r2)
        else none

/-- Comma-separated JSON object fields up to the closing brace. -/
def parseFields : Nat → List Char → Option (List (String × JValue) × List Char)
  | 0, _ => none
  | Nat.succ fuel, cs =>
    match skipWs cs with
    | [] => none
    | c :: rest =>
      if c = dqC then
        match parseStrBody rest with
        | none => none
        | some (k, r) =>
          match skipWs r with
          | [] => none
          | c2 :: r2 =>
            if c2 = ':' then
              match parseValue fuel r2 with
              | none => none
              | some (v, r3) =>
                match skipWs r3 with
                | [] => none
                | c3 :: r4 =>
                  if c3 = ',' then
                    match parseFields fuel r4 with
                    | none => none
                    | some (fs, r5) => some ((String.mk k, v) :: fs, r5)
                  else if c3 = rbraceC then some ([(String.mk k, v)], r4)
                  else none
            else none
      else none

end

/-- The model of `json.loads`: parse one value and require that only
whitespace follows (Python raises on trailing data). -/
def jsonLoads (cs : List Char) : Option JValue :=
  match parseValue (cs.length + 1) cs with
  | none => none
  | some (v, rest) => if (skipWs rest).isEmpty then some v else none

/-- Python `"```" in text`: the text contains three consecutive backticks. -/
def hasTriple : List Char → Bool
  | c1 :: c2 :: c3 :: rest =>
    if c1 = tickC && c2 = tickC && c3 = tickC then true
    else hasTriple (c2 :: c3 :: rest)
  | _ => false

/-- Python `text.split("```")`: split on non-overlapping occurrences of three
backticks, scanning left to right. -/
def splitOnTicks : List Char → List (List Char)
  | c1 :: c2 :: c3 :: rest =>
    if c1 = tickC && c2 = tickC && c3 = tickC then [] :: splitOnTicks rest
    else
      match splitOnTicks (c2 :: c3 :: rest) with
      | h :: t => (c1 :: h) :: t
      | [] => [[c1]]
  | cs => [cs]

/-- Python `part.split("\n", 1)[-1]` when the part contains a newline: the
text after the first newline. -/
def dropThroughNl : List Char → List Char
  | [] => []
  | c :: rest => if c = nlC then rest else dropThroughNl rest

/-- Whether a part contains a newline (`"\n" in part`). -/
def hasNl (cs : List Char) : Bool := cs.any (· = nlC)

/-- The fenced-segment loop of strategy 1: for each part after a fence
delimiter, skip an optional language-tag line, strip, and attempt a strict
parse when the candidate starts with an opening brace; return the first
success. -/
def fencedLoop : List (List Char) → Option JValue
  | [] => none
  | part :: rest =>
    let candidate := stripStr (if hasNl part then dropThroughNl part else part)
    match candidate with
    | [] => fencedLoop rest
    | c :: _ =>
      if c = lbraceC then
        match jsonLoads candidate with
        | some v => some v
        | none => fencedLoop rest
      else fencedLoop rest

/-- Python `str.find` restricted to a character: index of the first
occurrence, `none` when absent (Python returns `-1`). -/
def firstIdx (p : Char → Bool) : List Char → Option Nat
  | [] => none
  | c :: rest => if p c then some 0 else (firstIdx p rest).map (· + 1)

/-- Python `str.rfind` restricted to a character: index of the last
occurrence. -/
def lastIdx (cs : List Char) (c : Char) : Option Nat :=
  (firstIdx (· = c) cs.reverse).map (fun i => cs.length - 1 - i)

/-- The regex `\[([^\]]+)\]` of strategy 3: content of the first bracketed
span with at least one non-bracket character; mirrors leftmost search with a
greedy character class. -/
def findBracket : List Char → Option (List Char)
  | [] => none
  | c :: rest =>
    if c = lbrackC then
      let content := rest.takeWhile (fun d => !(d = rbrackC))
      if content.length = rest.length then none
      else if content.isEmpty then findBracket rest
      else some content
    else findBracket rest

/-- The character class `["\s:]` following the literal `summary`. -/
def sumClass1 (c : Char) : Bool := c = dqC || isPyWs c || c = ':'

/-- The capture class `[^"}\]]` of the summary regex. -/
def sumClass2 (c : Char) : Bool := !(c = dqC || c = rbraceC || c = rbrackC)

/-- Case-insensitive match of the literal `summary`, returning the remainder. -/
def isSummaryLit : List Char → Option (List Char)
  | c1 :: c2 :: c3 :: c4 :: c5 :: c6 :: c7 :: rest =>
    if c1.toLower = 's' && c2.toLower = 'u' && c3.toLower = 'm' &&
       c4.toLower = 'm' && c5.toLower = 'a' && c6.toLower = 'r' &&
       c7.toLower = 'y' then some rest
    else none
  | _ => none

/-- Backtracking of `["\s:]+` before the capture group: try separator lengths
from the greedy maximum down to one; the capture is the maximal run of
`sumClass2` characters and must be non-empty. -/
def sumTryFrom (after : List Char) : Nat → Option (List Char)
  | 0 => none
  | Nat.succ a =>
    match after.drop (a + 1) with
    | [] => sumTryFrom after a
    | c :: r =>
      if sumClass2 c then some (c :: r.takeWhile sumClass2)
      else sumTryFrom after a

/-- One attempted match of `summary["\s:]+([^"}\]]+)` at the current
position. -/
def sumMatchAt (cs : List Char) : Option (List Char) :=
  match isSummaryLit cs with
  | none => none
  | some after => sumTryFrom after (after.takeWhile sumClass1).length

/-- `re.search` of the summary regex: leftmost position where the pattern
matches, with case-insensitive literal matching. -/
def findSummaryCap : List Char → Option (List Char)
  | [] => none
  | c :: rest =>
    match sumMatchAt (c :: rest) with
    | some cap => some cap
    | none => findSummaryCap rest

/-- Python `raw.split(",")`: split on commas, keeping empty pieces. -/
def splitComma : List Char → List (List Char)
  | [] => [[]]
  | c :: rest =>
    if c = ',' then [] :: splitComma rest
    else
      match splitComma rest with
      | h :: t => (c :: h) :: t
      | [] => [[c]]

/-- `t.strip().strip('"').strip("'")` applied to a raw tag token. -/
def cleanTagTok (tok : List Char) : String :=
  String.mk (stripChar sqC (stripChar dqC (stripStr tok)))

/-- The tag list recovered by strategy 3: split the bracketed content on
commas, clean each token, keep the non-empty ones, truncate to three. -/
def looseTags (t : List Char) : List String :=
  match findBracket t with
  | none => []
  | some content =>
    (((splitComma content).map cleanTagTok).filter (fun s => !(s = ""))).take 3

/-- The summary recovered by strategy 3: the captured group, stripped of
whitespace and quotes. -/
def looseSummary (t : List Char) : String :=
  match findSummaryCap t with
  | none => ""
  | some cap => String.mk (stripChar sqC (stripChar dqC (stripStr cap)))

/-- The error message of a failed extraction, carrying the offending
(stripped) text, as the `ValueError` of the source does. -/
def extractFailMsg (t : List Char) : String :=
  "Could not parse JSON from LLM output:\n" ++ String.mk t

/-- `extract_json_from_text` of `Part3/agent_demo.py`, translated clause by
clause: strip the text; if it contains a fence delimiter, scan the fenced
segments for a strict parse; otherwise locate the first opening and last
closing brace and strictly parse that span; otherwise recover a tag list and
a summary-labelled value by regex, succeeding only when both are non-empty;
otherwise fail with the offending text. -/
def extractAt (t : List Char) : Except String JValue :=
  match (if hasTriple t then fencedLoop (splitOnTicks t).tail else none) with
  | some v => Except.ok v
  | none =>
    match
      (match firstIdx (· = lbraceC) t, lastIdx t rbraceC with
       | some b, some e =>
         if b < e then jsonLoads ((t.drop b).take (e + 1 - b)) else none
       | _, _ => none) with
    | some v => Except.ok v
    | none =>
      if !(looseTags t).isEmpty && !(looseSummary t = "") then
        Except.ok (JValue.obj
          [("tags", JValue.arr ((looseTags t).map JValue.str)),
           ("summary", JValue.str (looseSummary t))])
      else Except.error (extractFailMsg t)

/-- The body of `extract_json_from_text` applied to the stripped text
(`text = text.strip()` is the first line of the source). -/
def extract_json_from_text (text : String) : Except String JValue :=
  extractAt (stripStr text.data)

/-- Strategy 1 of the specification: if the text contains fence delimiters,
scan each fenced segment, skip an optional leading language-tag line, and
attempt a strict parse of the remainder when it begins with an
object-opening brace. -/
def fencedStrategy (t : List Char) : Option JValue :=
  if hasTriple t then fencedLoop (splitOnTicks t).tail else none

/-- Strategy 2 of the specification: locate the first `{` and the last `}` in
the whole text and attempt a strict parse of that span. -/
def braceSpanStrategy (t : List Char) : Option JValue :=
  match firstIdx (· = lbraceC) t, lastIdx t rbraceC with
  | some b, some e =>
    if b < e then jsonLoads ((t.drop b).take (e + 1 - b)) else none
  | _, _ => none

/-- Strategy 3 of the specification: independently recover a bracketed list
(first three non-empty entries) and a `summary`-labelled value, succeeding
only if both a non-empty tag list and a non-empty summary are found. -/
def looseRegexStrategy (t : List Char) : Option JValue :=
  let tags := looseTags t
  let summary := looseSummary t
  if !tags.isEmpty && !(summary = "") then
    some (JValue.obj
      [("tags", JValue.arr (tags.map JValue.str)),
       ("summary", JValue.str summary)])
  else none

/-- The extractor as the specification words it: try the three strategies in
order on the stripped text, return the first success, and report a failure
carrying the offending text when all fail. -/
def extract_spec (text : String) : Except String JValue :=
  match fencedStrategy (stripStr text.data) <|>
      braceSpanStrategy (stripStr text.data) <|>
      looseRegexStrategy (stripStr text.data) with
  | some v => Except.ok v
  | none => Except.error (extractFailMsg (stripStr text.data))

/-- `extract_json_from_text` of `Assignment1-AgenticAI/Part2/agents_demo.py`:
`re.search(r"\{.*\}", text, re.DOTALL)` takes the span from the first opening
brace to the last closing brace (the greedy match), then a strict parse;
`None` on any failure. -/
def extract_json_from_text_a1 (text : String) : Option JValue :=
  let t := text.data
  match firstIdx (· = lbraceC) t, lastIdx t rbraceC with
  | some b, some e =>
    if b < e then jsonLoads (stripStr ((t.drop b).take (e + 1 - b))) else none
  | _, _ => none

/-- Accumulator loop of `clean_tags`: keep string entries, trim them, drop
empties, and de-duplicate case-insensitively (`seen` holds the lower-cased
keys), preserving first-seen order and original casing. -/
def cleanTagsGo : List JValue → List String → List String → List String
  | [], _, acc => acc.reverse
  | JValue.str t :: rest, seen, acc =>
    let x := pyStrip t
    if x = "" then cleanTagsGo rest seen acc
    else if pyLower x ∈ seen then cleanTagsGo rest seen acc
    else cleanTagsGo rest (pyLower x :: seen) (x :: acc)
  | _ :: rest, seen, acc => cleanTagsGo rest seen acc

/-- `clean_tags` of `Part2/agents_demo.py`: a non-list input yields `[]`;
otherwise non-string entries are dropped, entries are trimmed, empties are
dropped, and duplicates (case-insensitive) are removed keeping the first
occurrence. -/
def clean_tags (tags : Option JValue) : List String :=
  match tags with
  | some (JValue.arr xs) => cleanTagsGo xs [] []
  | _ => []

/-- The tag part of `finalize_output`: truncate to the first three, then
append the filler tag `"general"` until there are three. -/
def finalizeTags (cleaned : List String) : List String :=
  let t := if cleaned.length > 3 then cleaned.take 3 else cleaned
  t ++ List.replicate (3 - t.length) "general"

/-- The result record of `finalize_output`: three tags and the summary value
passed through unchanged (`obj.get("summary")`). -/
structure FinalRecord where
  tags : List String
  summary : Option JValue

/-- `finalize_output` of `Part2/agents_demo.py`: clean the tags, force exactly
three by truncation and filler padding, and return the summary exactly as it
came in. -/
def finalize_output (fields : List (String × JValue)) : FinalRecord :=
  { tags := finalizeTags (clean_tags (dictGet fields "tags"))
    summary := dictGet fields "summary" }

/-- Two tags are case-insensitive duplicates when their lower-casings agree;
the uniqueness property of the specification is pairwise distinctness under
this relation. -/
def lowerDistinct (a b : String) : Prop := pyLower a ≠ pyLower b

/-- A workflow proposal: the `planner_proposal` dict with its `tags` and
`summary` keys, typed as the specification's data model states them. -/
structure Proposal where
  tags : List String
  summary : String
deriving DecidableEq

/-- A review verdict: the `reviewer_feedback` dict with its `has_issues` and
`issues` keys (`issues` is `None` when the proposal is approved). -/
structure ReviewVerdict where
  has_issues : Bool
  issues : Option String
deriving DecidableEq

/-- The shared `AgentState` of `Part3/agent_demo.py`, without the prompt
string and the model handle (the model is passed as an oracle to the loop
driver).  `none` stands for the falsy empty dict of the initial state. -/
structure WorkflowState where
  title : String
  content : String
  planner_proposal : Option Proposal
  reviewer_feedback : Option ReviewVerdict
  turn_count : Nat
deriving DecidableEq

/-- The maximum number of supervisor turns (`MAX_TURNS = 5`). -/
def MAX_TURNS : Nat := 5

/-- The routing decisions of `router_logic`: the next node, or `END`. -/
inductive Route where
  | planner : Route
  | reviewer : Route
  | stop : Route
deriving DecidableEq

/-- `router_logic` of `Part3/agent_demo.py`, with the checks in source order:
turn limit, then missing proposal, then missing review, then review with
issues, otherwise approval. -/
def router_logic (s : WorkflowState) : Route :=
  if s.turn_count ≥ MAX_TURNS then Route.stop
  else
    match s.planner_proposal with
    | none => Route.planner
    | some _ =>
      match s.reviewer_feedback with
      | none => Route.reviewer
      | some fb => if fb.has_issues then Route.planner else Route.stop

/-- The router as the specification's five-case transition table words it:
`TURN_LIMIT`, `NEED_PROPOSAL`, `NEED_REVIEW`, `NEEDS_REVISION`, `APPROVED`,
evaluated in that order. -/
def router_spec (s : WorkflowState) : Route :=
  if s.turn_count ≥ MAX_TURNS then Route.stop
  else if s.planner_proposal = none then Route.planner
  else if s.reviewer_feedback = none then Route.reviewer
  else if (s.reviewer_feedback.map ReviewVerdict.has_issues).getD false then
    Route.planner
  else Route.stop

/-- `supervisor_node`: increment the turn counter, touching nothing else. -/
def supervisor_node (s : WorkflowState) : WorkflowState :=
  { s with turn_count := s.turn_count + 1 }

/-- The fixed safe-default proposal of the Planner's `except` branch. -/
def fallbackProposal : Proposal :=
  { tags := ["tag1", "tag2", "tag3"], summary := "one word summary" }

/-- A Python value rendered as a tag string.  The Planner keeps non-string
tag entries of a parsed list as they are; this bridge maps them into the
string-typed tag list of the data model.  Every claim below depends on such
entries only through the tag count. -/
def jvalToStr : JValue → String
  | JValue.str s => s
  | JValue.num r => r
  | JValue.bool b => if b then "True" else "False"
  | JValue.null => "None"
  | JValue.arr _ => ""
  | JValue.obj _ => ""

/-- The summary normalization of `planner_node`: when the summary has more
than 25 words, keep only the first 25, rejoined with single spaces. -/
def plannerTruncate (s : String) : String :=
  let ws := pyWords s.data
  if ws.length > 25 then " ".intercalate (ws.take 25) else s

/-- The parse-and-normalize step of `planner_node` on the raw model text:
extraction failure, a missing `tags` or `summary` key, a non-list `tags`
value, or a non-string summary (whose `.split()` raises) all fall back to the
fixed safe-default proposal; otherwise the tags are truncated to three and
padded with `"general"`, and the summary is truncated to 25 words. -/
def planner_result (response_text : String) : Proposal :=
  match extract_json_from_text response_text with
  | Except.error _ => fallbackProposal
  | Except.ok j =>
    match j with
    | JValue.obj fields =>
      match dictGet fields "tags", dictGet fields "summary" with
      | some (JValue.arr ts), some (JValue.str s) =>
        { tags := (ts.take 3).map jvalToStr ++
            List.replicate (3 - (ts.take 3).length) "general"
          summary := plannerTruncate s }
      | _, _ => fallbackProposal
    | _ => fallbackProposal

/-- The forced test issue of `reviewer_node` (`force_issue = True` in the
source). -/
def forced_issue_msg : String :=
  "FORCED TEST ISSUE: Please revise the tags to be more specific."

/-- Issue text of rule 1 (`Need exactly 3 tags (got n)`). -/
def tag_count_msg (n : Nat) : String :=
  "Need exactly 3 tags (got " ++ toString n ++ ")"

/-- Issue text of rule 2 (`Summary too long`). -/
def summary_long_msg (n : Nat) : String :=
  "Summary too long (" ++ toString n ++ " words, max 25)"

/-- Issue text of rule 3 (`One or more tags are empty`). -/
def empty_tag_msg : String := "One or more tags are empty"

/-- Issue text of rule 4 (`Summary is empty`). -/
def empty_summary_msg : String := "Summary is empty"

/-- The four validation rules of `reviewer_node`, all evaluated and appended
in source order — no short-circuiting. -/
def reviewerIssues (tags : List String) (summary : String) : List String :=
  (if tags.length ≠ 3 then [tag_count_msg tags.length] else []) ++
  (if word_count summary > 25 then [summary_long_msg (word_count summary)] else []) ++
  (if tags.any (fun t => t = "" || pyStrip t = "") then [empty_tag_msg] else []) ++
  (if pyStrip summary = "" then [empty_summary_msg] else [])

/-- `reviewer_node` of `Part3/agent_demo.py`: an absent proposal is reported
directly; otherwise the four rules run, the semantic-relevance response is
computed (`resp.content.strip()`) but used nowhere, the forced test issue is
appended unconditionally, and the verdict aggregates all issues joined with
`"; "`. -/
def reviewer_node (proposal : Option Proposal) (content : String)
    (relevance_response : String) : ReviewVerdict :=
  match proposal with
  | none => { has_issues := true, issues := some "No proposal received from Planner." }
  | some p =>
    let _semantic := relevance_response.trim
    let _excerpt := content.take 200
    let issues := reviewerIssues p.tags p.summary ++ [forced_issue_msg]
    if issues.isEmpty then { has_issues := false, issues := none }
    else { has_issues := true, issues := some ("; ".intercalate issues) }

/-- The loop driver of the compiled graph, for arbitrary stage behaviours:
each cycle runs the supervisor, asks the router for a decision on the updated
state, and either stops or runs the chosen stage, whose returned delta
overwrites only its own key.  The boolean records whether the router signalled
termination within the given number of cycles. -/
def run_loop_gen (pB : WorkflowState → Proposal) (rB : WorkflowState → ReviewVerdict) :
    Nat → WorkflowState → WorkflowState × Bool
  | 0, s => (s, false)
  | Nat.succ fuel, s =>
    let s1 := supervisor_node s
    match router_logic s1 with
    | Route.stop => (s1, true)
    | Route.planner =>
      run_loop_gen pB rB fuel { s1 with planner_proposal := some (pB s1) }
    | Route.reviewer =>
      run_loop_gen pB rB fuel { s1 with reviewer_feedback := some (rB s1) }

/-- The loop driver with the real Planner and Reviewer stages; `pf` and `rf`
are the model oracles giving the raw text of each model response. -/
def run_loop (pf rf : WorkflowState → String) :
    Nat → WorkflowState → WorkflowState × Bool :=
  run_loop_gen (fun s => planner_result (pf s))
    (fun s => reviewer_node s.planner_proposal s.content (rf s))

/-- The `review_status` of the final publish JSON built in `main`:
`"approved"` exactly when the feedback is absent or has no issues. -/
def review_status (s : WorkflowState) : String :=
  match s.reviewer_feedback with
  | none => "approved"
  | some fb => if fb.has_issues then "needs_revision" else "approved"

/-- The initial state of `main`: empty proposal and feedback dicts, turn
counter zero. -/
def initialState (title content : String) : WorkflowState :=
  { title := title, content := content, planner_proposal := none,
    reviewer_feedback := none, turn_count := 0 }

instance : DecidableRel lowerDistinct := fun a b =>
  inferInstanceAs (Decidable (pyLower a ≠ pyLower b))

def c4_long_summary : String :=
  "w w w w w w w w w w w w w w w w w w w w w w w w w w"

def c4_record : List (String × JValue) :=
  [("tags", JValue.arr [JValue.str "a", JValue.str "b", JValue.str "c"]),
   ("summary", JValue.str c4_long_summary)]

def plainChar (c : Char) : Bool :=
  32 ≤ c.toNat && c.toNat ≤ 126 && !(c = dqC) && !(c = bslashC) && !(c = tickC)

def plainL (cs : List Char) : Bool := cs.all plainChar

def quoteChars (s : String) : List Char := dqC :: s.data ++ [dqC]

def itemsChars : List String → List Char
  | [] => []
  | [t] => quoteChars t
  | t :: rest => quoteChars t ++ ',' :: ' ' :: itemsChars rest

def serializeRecordChars (tags : List String) (summary : String) : List Char :=
  lbraceC :: ("\"tags\": [".data ++ itemsChars tags ++ "], \"summary\": ".data ++
    quoteChars summary ++ [rbraceC])

def recordJ (tags : List String) (summary : String) : JValue :=
  JValue.obj [("tags", JValue.arr (tags.map JValue.str)),
              ("summary", JValue.str summary)]

def noTickNl (cs : List Char) : Bool :=
  cs.all (fun c => !(c = tickC) && !(c = nlC))

def sRecMid (tags : List String) (summary : String) : List Char :=
  "\"tags\": [".data ++ itemsChars tags ++ "], \"summary\": ".data ++
    quoteChars summary

def serializeRecord (tags : List String) (summary : String) : String :=
  String.mk (serializeRecordChars tags summary)

def fenceWrap (lang : List Char) (body : String) : String :=
  String.mk (tickC :: tickC :: tickC ::
    (lang ++ nlC :: (body.data ++ nlC :: tickC :: tickC :: tickC :: [])))

def proseWrap (pre post : List Char) (body : String) : String :=
  String.mk (pre ++ body.data ++ post)

theorem cleanTagsGo_ne_empty : ∀ (xs : List JValue) (seen acc : List String),
    (∀ a ∈ acc, a ≠ "") → ∀ x ∈ cleanTagsGo xs seen acc, x ≠ "" := by
  intro xs
  induction xs with
  | nil =>
    intro seen acc hacc x hx
    simp only [cleanTagsGo, List.mem_reverse] at hx
    exact hacc x hx
  | cons v rest ih =>
    intro seen acc hacc x hx
    cases v with
    | str t =>
      simp only [cleanTagsGo] at hx
      by_cases h1 : pyStrip t = ""
      · rw [if_pos h1] at hx
        exact ih seen acc hacc x hx
      · rw [if_neg h1] at hx
        by_cases h2 : pyLower (pyStrip t) ∈ seen
        · rw [if_pos h2] at hx
          exact ih seen acc hacc x hx
        · rw [if_neg h2] at hx
          refine ih _ _ ?_ x hx
          intro a ha
          rcases List.mem_cons.mp ha with h | h
          · rw [h]; exact h1
          · exact hacc a h
    | null => exact ih seen acc hacc x hx
    | bool b => exact ih seen acc hacc x hx
    | num r => exact ih seen acc hacc x hx
    | arr l => exact ih seen acc hacc x hx
    | obj l => exact ih seen acc hacc x hx

theorem cleanTagsGo_pairwise : ∀ (xs : List JValue) (seen acc : List String),
    (∀ a ∈ acc, pyLower a ∈ seen) → List.Pairwise lowerDistinct acc →
    List.Pairwise lowerDistinct (cleanTagsGo xs seen acc) := by
  intro xs
  induction xs with
  | nil =>
    intro seen acc hseen hpw
    simp only [cleanTagsGo]
    rw [List.pairwise_reverse]
    exact hpw.imp (fun h => Ne.symm h)
  | cons v rest ih =>
    intro seen acc hseen hpw
    cases v with
    | str t =>
      simp only [cleanTagsGo]
      by_cases h1 : pyStrip t = ""
      · rw [if_pos h1]; exact ih seen acc hseen hpw
      · rw [if_neg h1]
        by_cases h2 : pyLower (pyStrip t) ∈ seen
        · rw [if_pos h2]; exact ih seen acc hseen hpw
        · rw [if_neg h2]
          refine ih _ _ ?_ ?_
          · intro a ha
            rcases List.mem_cons.mp ha with h | h
            · rw [h]; exact List.mem_cons_self _ _
            · exact List.mem_cons_of_mem _ (hseen a h)
          · refine List.pairwise_cons.mpr ⟨?_, hpw⟩
            intro a ha
            intro hc
            exact h2 (hc ▸ hseen a ha)
    | null => exact ih seen acc hseen hpw
    | bool b => exact ih seen acc hseen hpw
    | num r => exact ih seen acc hseen hpw
    | arr l => exact ih seen acc hseen hpw
    | obj l => exact ih seen acc hseen hpw

theorem finalizeTags_length (cleaned : List String) :
    (finalizeTags cleaned).length = 3 := by
  unfold finalizeTags
  by_cases h : cleaned.length > 3
  · simp [h]
  · simp only [if_neg h, List.length_append, List.length_replicate]
    omega

theorem finalizeTags_mem (cleaned : List String) (x : String)
    (hx : x ∈ finalizeTags cleaned) : x ∈ cleaned ∨ x = "general" := by
  unfold finalizeTags at hx
  rcases List.mem_append.mp hx with h | h
  · by_cases hc : cleaned.length > 3
    · rw [if_pos hc] at h
      exact Or.inl (List.mem_of_mem_take h)
    · rw [if_neg hc] at h
      exact Or.inl h
  · exact Or.inr (List.eq_of_mem_replicate h)

theorem finalizeTags_of_ge (cleaned : List String) (h : 3 ≤ cleaned.length) :
    finalizeTags cleaned = cleaned.take 3 := by
  unfold finalizeTags
  by_cases hc : cleaned.length > 3
  · simp [hc, List.length_take]
    omega
  · have : cleaned.take 3 = cleaned := List.take_of_length_le (by omega)
    simp [hc, this]
    omega

theorem reviewer_node_has_issues (p : Option Proposal) (content resp : String) :
    (reviewer_node p content resp).has_issues = true := by
  cases p with
  | none => rfl
  | some pr => simp [reviewer_node]

theorem parse_plain_body : ∀ (s : List Char) (rest : List Char),
    plainL s = true → parseStrBodyAux false (s ++ dqC :: rest) = some (s, rest) := by
  intro s
  induction s with
  | nil =>
    intro rest _
    simp [parseStrBodyAux]
  | cons c cs ih =>
    intro rest h
    rw [plainL, List.all_cons, Bool.and_eq_true] at h
    obtain ⟨hc, hcs⟩ := h
    simp only [plainChar, Bool.and_eq_true, Bool.not_eq_true', decide_eq_false_iff_not,
      decide_eq_true_eq] at hc
    obtain ⟨⟨⟨⟨h32, h126⟩, hdq⟩, hbs⟩, ht⟩ := hc
    simp only [List.cons_append, parseStrBodyAux]
    rw [if_neg hdq, if_neg hbs, if_neg (by omega)]
    simp only [List.append_eq]
    rw [ih rest hcs]

theorem skipWs_cons_of (c : Char) (cs : List Char) (h : isJsonWs c = false) :
    skipWs (c :: cs) = c :: cs := by
  simp [skipWs, h]

theorem parseValue_quote (f : Nat) (s : String) (rest : List Char)
    (h : plainL s.data = true) :
    parseValue (f + 1) (quoteChars s ++ rest) = some (JValue.str s, rest) := by
  have hq : quoteChars s ++ rest = dqC :: (s.data ++ dqC :: rest) := by
    simp [quoteChars]
  rw [hq]
  simp only [parseValue, skipWs_cons_of dqC _ (by decide), if_true]
  rw [parseStrBody, parse_plain_body s.data rest h]

theorem parseValue_space (f : Nat) (cs : List Char) :
    parseValue f (' ' :: cs) = parseValue f cs := by
  cases f with
  | zero => rfl
  | succ g =>
    simp only [parseValue]
    have : skipWs (' ' :: cs) = skipWs cs := by simp [skipWs, isJsonWs]
    rw [this]

theorem parseItems_space (g : Nat) (cs : List Char) :
    parseItems (g + 1) (' ' :: cs) = parseItems (g + 1) cs := by
  simp only [parseItems, parseValue_space]

theorem parseItems_tags : ∀ (tags : List String) (f : Nat) (rest : List Char),
    (∀ t ∈ tags, plainL t.data = true) → tags ≠ [] → tags.length + 1 ≤ f →
    parseItems f (itemsChars tags ++ rbrackC :: rest) =
      some (tags.map JValue.str, rest) := by
  intro tags
  induction tags with
  | nil => intro f rest _ hne _; exact absurd rfl hne
  | cons t tl ih =>
    intro f rest hp _ hf
    simp only [List.length_cons] at hf
    obtain ⟨f1, rfl⟩ : ∃ g, f = g + 1 := ⟨f - 1, by omega⟩
    cases tl with
    | nil =>
      simp only [itemsChars, parseItems]
      obtain ⟨f2, rfl⟩ : ∃ g, f1 = g + 1 := ⟨f1 - 1, by omega⟩
      simp only [parseValue_quote f2 t (rbrackC :: rest) (hp t (List.mem_cons_self _ _)),
        skipWs_cons_of rbrackC rest (by decide)]
      simp
      exact fun hc => absurd hc (by decide)
    | cons t2 tl2 =>
      have hitems : itemsChars (t :: t2 :: tl2) =
          quoteChars t ++ ',' :: ' ' :: itemsChars (t2 :: tl2) := rfl
      rw [hitems]
      simp only [parseItems, List.append_assoc, List.cons_append]
      obtain ⟨f2, rfl⟩ : ∃ g, f1 = g + 1 := ⟨f1 - 1, by omega⟩
      simp only [parseValue_quote f2 t _ (hp t (List.mem_cons_self _ _)),
        skipWs_cons_of ',' _ (by decide)]
      simp only [if_true]
      rw [parseItems_space]
      rw [ih (f2 + 1) rest (fun x hx => hp x (List.mem_cons_of_mem _ hx))
        (by simp) (by simp only [List.length_cons] at hf ⊢; omega)]
      simp

theorem itemsChars_cons_shape (t : String) (tl : List String) :
    ∃ L, itemsChars (t :: tl) = dqC :: L := by
  cases tl with
  | nil => exact ⟨t.data ++ [dqC], by simp [itemsChars, quoteChars]⟩
  | cons t2 tl2 =>
    exact ⟨t.data ++ [dqC] ++ ',' :: ' ' :: itemsChars (t2 :: tl2),
      by simp [itemsChars, quoteChars]⟩

theorem parseValue_tags_array (f : Nat) (tags : List String) (rest : List Char)
    (hp : ∀ t ∈ tags, plainL t.data = true) (hf : tags.length + 2 ≤ f) :
    parseValue f (lbrackC :: (itemsChars tags ++ rbrackC :: rest)) =
      some (JValue.arr (tags.map JValue.str), rest) := by
  obtain ⟨f1, rfl⟩ : ∃ g, f = g + 1 := ⟨f - 1, by omega⟩
  simp only [parseValue, skipWs_cons_of lbrackC _ (by decide), if_true]
  cases tags with
  | nil =>
    simp only [itemsChars, List.nil_append]
    simp only [if_neg (show ¬(lbrackC = dqC) by decide),
      skipWs_cons_of rbrackC _ (by decide), if_pos rfl]
    simp
  | cons t tl =>
    obtain ⟨L, hL⟩ := itemsChars_cons_shape t tl
    rw [hL]
    simp only [List.cons_append]
    simp only [if_neg (show ¬(lbrackC = dqC) by decide),
      skipWs_cons_of dqC _ (by decide),
      if_neg (show ¬(dqC = rbrackC) by decide)]
    rw [← List.cons_append, ← hL]
    rw [parseItems_tags (t :: tl) f1 rest hp (by simp)
      (by simp only [List.length_cons] at hf ⊢; omega)]

theorem parseStrBody_tags_key (r : List Char) :
    parseStrBody ('t' :: 'a' :: 'g' :: 's' :: dqC :: r) = some (['t', 'a', 'g', 's'], r) :=
  parse_plain_body "tags".data r (by decide)

theorem parseStrBody_summary_key (r : List Char) :
    parseStrBody ('s' :: 'u' :: 'm' :: 'm' :: 'a' :: 'r' :: 'y' :: dqC :: r) =
      some (['s', 'u', 'm', 'm', 'a', 'r', 'y'], r) :=
  parse_plain_body "summary".data r (by decide)

theorem skipWs_space (cs : List Char) : skipWs (' ' :: cs) = skipWs cs := by
  simp [skipWs, isJsonWs]

theorem parseFields_sum (g : Nat) (summary : String) (rest : List Char)
    (hs : plainL summary.data = true) :
    parseFields (g + 2) (' ' :: dqC :: 's' :: 'u' :: 'm' :: 'm' :: 'a' :: 'r' :: 'y' ::
      dqC :: ':' :: ' ' :: dqC :: (summary.data ++ dqC :: rbraceC :: rest)) =
      some ([("summary", JValue.str summary)], rest) := by
  obtain ⟨h, hh⟩ : ∃ m, g + 2 = m + 1 := ⟨g + 1, rfl⟩
  rw [hh]
  simp only [parseFields, skipWs_space, skipWs_cons_of dqC _ (by decide), if_pos rfl,
    parseStrBody_summary_key, skipWs_cons_of ':' _ (by decide)]
  have hone : h = g + 1 := by omega
  rw [hone, parseValue_space]
  have hq2 : dqC :: (summary.data ++ dqC :: rbraceC :: rest) =
      quoteChars summary ++ rbraceC :: rest := by
    simp [quoteChars]
  rw [hq2, parseValue_quote g summary _ hs]
  simp only [skipWs_cons_of rbraceC _ (by decide),
    if_neg (show ¬(rbraceC = ',') by decide), if_pos rfl]
  simp only [if_true]

theorem parse_record (tags : List String) (summary : String) (f : Nat) (rest : List Char)
    (hp : ∀ t ∈ tags, plainL t.data = true) (hs : plainL summary.data = true)
    (hf : tags.length + 4 ≤ f) :
    parseValue f (serializeRecordChars tags summary ++ rest) =
      some (recordJ tags summary, rest) := by
  have hshape : serializeRecordChars tags summary ++ rest =
      lbraceC :: dqC :: 't' :: 'a' :: 'g' :: 's' :: dqC :: ':' :: ' ' :: lbrackC ::
        (itemsChars tags ++ rbrackC :: ',' :: ' ' :: dqC :: 's' :: 'u' :: 'm' :: 'm' ::
          'a' :: 'r' :: 'y' :: dqC :: ':' :: ' ' :: dqC ::
          (summary.data ++ dqC :: rbraceC :: rest)) := by
    simp [serializeRecordChars, quoteChars]; decide
  rw [hshape]
  obtain ⟨g3, hg3⟩ : ∃ m, f = m + 1 := ⟨f - 1, by omega⟩
  rw [hg3]
  simp only [parseValue, skipWs_cons_of lbraceC _ (by decide)]
  simp only [if_neg (show ¬(lbraceC = dqC) by decide),
    if_neg (show ¬(lbraceC = lbrackC) by decide), if_pos rfl,
    skipWs_cons_of dqC _ (by decide),
    if_neg (show ¬(dqC = rbraceC) by decide)]
  obtain ⟨g2, hg2⟩ : ∃ m, g3 = m + 1 := ⟨g3 - 1, by omega⟩
  rw [hg2]
  simp only [parseFields, skipWs_cons_of dqC _ (by decide), if_pos rfl,
    parseStrBody_tags_key, skipWs_cons_of ':' _ (by decide)]
  rw [parseValue_space]
  rw [parseValue_tags_array g2 tags _ hp (by omega)]
  simp only [skipWs_cons_of ',' _ (by decide), if_pos rfl]
  obtain ⟨g1, hg1⟩ : ∃ m, g2 = m + 2 := ⟨g2 - 2, by omega⟩
  rw [hg1]
  rw [parseFields_sum g1 summary rest hs]
  simp only [if_true]
  rfl

theorem itemsChars_length_ge : ∀ tags : List String,
    tags.length ≤ (itemsChars tags).length := by
  intro tags
  induction tags with
  | nil => simp [itemsChars]
  | cons t tl ih =>
    cases tl with
    | nil => simp [itemsChars, quoteChars]
    | cons t2 tl2 =>
      have : itemsChars (t :: t2 :: tl2) =
          quoteChars t ++ ',' :: ' ' :: itemsChars (t2 :: tl2) := rfl
      rw [this]
      simp only [List.length_append, List.length_cons, List.length_cons, quoteChars,
        List.length_append] at *
      omega

theorem sRec_length (tags : List String) (summary : String) :
    tags.length + 4 ≤ (serializeRecordChars tags summary).length + 1 := by
  have h9 : ("\"tags\": [".data).length = 9 := rfl
  have h14 : ("], \"summary\": ".data).length = 14 := rfl
  have hit := itemsChars_length_ge tags
  simp only [serializeRecordChars, quoteChars, List.length_cons, List.length_append,
    h9, h14]
  omega

theorem jsonLoads_record (tags : List String) (summary : String)
    (hp : ∀ t ∈ tags, plainL t.data = true) (hs : plainL summary.data = true) :
    jsonLoads (serializeRecordChars tags summary) = some (recordJ tags summary) := by
  unfold jsonLoads
  have happ : serializeRecordChars tags summary =
      serializeRecordChars tags summary ++ [] := by simp
  rw [happ] at *
  rw [parse_record tags summary _ [] hp hs (by
    have := sRec_length tags summary
    simp only [List.length_append, List.length_nil] at *
    omega)]
  rfl

theorem dropWhile_append_stop (p : Char → Bool) (xs : List Char) (y : Char)
    (zs : List Char) (hy : p y = false) :
    List.dropWhile p (xs ++ y :: zs) = List.dropWhile p xs ++ y :: zs := by
  induction xs with
  | nil => simp [List.dropWhile_cons, hy]
  | cons x xs ih =>
    by_cases hx : p x
    · simp [List.dropWhile_cons, hx, ih]
    · simp [List.dropWhile_cons, hx]

theorem firstIdx_append (p : Char → Bool) (xs : List Char) (y : Char) (zs : List Char)
    (hxs : ∀ c ∈ xs, p c = false) (hy : p y = true) :
    firstIdx p (xs ++ y :: zs) = some xs.length := by
  induction xs with
  | nil => simp [firstIdx, hy]
  | cons x xs ih =>
    have hx : p x = false := hxs x (List.mem_cons_self _ _)
    simp only [List.cons_append, firstIdx, hx, Bool.false_eq_true, if_false,
      List.append_eq]
    rw [ih (fun c hc => hxs c (List.mem_cons_of_mem _ hc))]
    simp

theorem hasTriple_false : ∀ cs : List Char, (∀ c ∈ cs, ¬(c = tickC)) →
    hasTriple cs = false := by
  intro cs
  induction cs with
  | nil => intro _; rfl
  | cons c rest ih =>
    intro h
    cases rest with
    | nil => rfl
    | cons c2 rest2 =>
      cases rest2 with
      | nil => rfl
      | cons c3 rest3 =>
        have hc : ¬(c = tickC) := h c (List.mem_cons_self _ _)
        simp only [hasTriple]
        rw [if_neg (by simp [hc])]
        exact ih fun x hx => h x (List.mem_cons_of_mem _ hx)

theorem splitOnTicks_ne_nil : ∀ cs : List Char, splitOnTicks cs ≠ [] := by
  intro cs
  match cs with
  | [] => simp [splitOnTicks]
  | [c] => simp [splitOnTicks]
  | [c, c2] => simp [splitOnTicks]
  | c :: c2 :: c3 :: rest =>
    simp only [splitOnTicks]
    by_cases h : c = tickC ∧ c2 = tickC ∧ c3 = tickC
    · rw [if_pos (by simp [h.1, h.2.1, h.2.2])]
      simp
    · rw [if_neg (by simpa using h)]
      cases hsp : splitOnTicks (c2 :: c3 :: rest) with
      | nil => simp
      | cons hh tt => simp

theorem splitOnTicks_cons (c : Char) (L : List Char) (hc : ¬(c = tickC)) :
    ∃ h t, splitOnTicks L = h :: t ∧ splitOnTicks (c :: L) = (c :: h) :: t := by
  match L with
  | [] => exact ⟨[], [], rfl, rfl⟩
  | [c2] => exact ⟨[c2], [], rfl, rfl⟩
  | c2 :: c3 :: rest =>
    cases hsp : splitOnTicks (c2 :: c3 :: rest) with
    | nil => exact absurd hsp (splitOnTicks_ne_nil _)
    | cons hh tt =>
      refine ⟨hh, tt, rfl, ?_⟩
      show splitOnTicks (c :: c2 :: c3 :: rest) = (c :: hh) :: tt
      simp only [splitOnTicks]
      rw [if_neg (by simp [hc]), hsp]

theorem splitOnTicks_first (ys : List Char) :
    splitOnTicks (tickC :: tickC :: tickC :: ys) = [] :: splitOnTicks ys := by
  simp [splitOnTicks]

theorem splitOnTicks_append : ∀ (xs ys : List Char), (∀ c ∈ xs, ¬(c = tickC)) →
    splitOnTicks (xs ++ tickC :: tickC :: tickC :: ys) = xs :: splitOnTicks ys := by
  intro xs
  induction xs with
  | nil => intro ys _; simp [splitOnTicks_first]
  | cons x xs ih =>
    intro ys h
    have hx : ¬(x = tickC) := h x (List.mem_cons_self _ _)
    obtain ⟨hh, tt, h1, h2⟩ :=
      splitOnTicks_cons x (xs ++ tickC :: tickC :: tickC :: ys) hx
    rw [List.cons_append, h2]
    rw [ih ys (fun c hc => h c (List.mem_cons_of_mem _ hc))] at h1
    obtain ⟨rfl, rfl⟩ : hh = xs ∧ tt = splitOnTicks ys := by
      cases h1; exact ⟨rfl, rfl⟩
    rfl

theorem splitOnTicks_tickfree : ∀ cs : List Char, (∀ c ∈ cs, ¬(c = tickC)) →
    splitOnTicks cs = [cs] := by
  intro cs
  induction cs with
  | nil => intro _; rfl
  | cons c rest ih =>
    intro h
    have hc : ¬(c = tickC) := h c (List.mem_cons_self _ _)
    obtain ⟨hh, tt, h1, h2⟩ := splitOnTicks_cons c rest hc
    rw [h2]
    rw [ih (fun x hx => h x (List.mem_cons_of_mem _ hx))] at h1
    cases h1
    rfl

theorem dropThroughNl_append : ∀ (xs : List Char), (∀ c ∈ xs, ¬(c = nlC)) →
    ∀ ys, dropThroughNl (xs ++ nlC :: ys) = ys := by
  intro xs
  induction xs with
  | nil => intro _ ys; simp [dropThroughNl]
  | cons x xs ih =>
    intro h ys
    have hx : ¬(x = nlC) := h x (List.mem_cons_self _ _)
    simp only [List.cons_append, dropThroughNl]
    rw [if_neg hx]
    exact ih (fun c hc => h c (List.mem_cons_of_mem _ hc)) ys

theorem plainChar_no (c : Char) (h : plainChar c = true) :
    ¬(c = tickC) ∧ ¬(c = nlC) ∧ ¬(c = dqC) ∧ ¬(c = bslashC) := by
  refine ⟨fun he => ?_, fun he => ?_, fun he => ?_, fun he => ?_⟩ <;>
    (subst he; revert h; decide)

theorem itemsChars_mem : ∀ (tags : List String) (c : Char), c ∈ itemsChars tags →
    c = dqC ∨ c = ',' ∨ c = ' ' ∨ ∃ t ∈ tags, c ∈ t.data := by
  intro tags
  induction tags with
  | nil => intro c hc; simp [itemsChars] at hc
  | cons t tl ih =>
    intro c hc
    cases tl with
    | nil =>
      simp only [itemsChars, quoteChars, List.mem_cons, List.mem_append,
        List.mem_singleton] at hc
      have hd : c = dqC ∨ c ∈ t.data := by tauto
      rcases hd with h | h
      · exact Or.inl h
      · exact Or.inr (Or.inr (Or.inr ⟨t, List.mem_singleton_self t, h⟩))
    | cons t2 tl2 =>
      have hsh : itemsChars (t :: t2 :: tl2) =
          quoteChars t ++ ',' :: ' ' :: itemsChars (t2 :: tl2) := rfl
      rw [hsh] at hc
      simp only [quoteChars, List.mem_append, List.mem_cons, List.mem_singleton] at hc
      have hd : c = dqC ∨ c ∈ t.data ∨ c = ',' ∨ c = ' ' ∨
          c ∈ itemsChars (t2 :: tl2) := by tauto
      rcases hd with h | h | h | h | h
      · exact Or.inl h
      · exact Or.inr (Or.inr (Or.inr ⟨t, List.mem_cons_self _ _, h⟩))
      · exact Or.inr (Or.inl h)
      · exact Or.inr (Or.inr (Or.inl h))
      · rcases ih c h with h1 | h1 | h1 | h1
        · exact Or.inl h1
        · exact Or.inr (Or.inl h1)
        · exact Or.inr (Or.inr (Or.inl h1))
        · obtain ⟨t3, ht3, hc3⟩ := h1
          exact Or.inr (Or.inr (Or.inr ⟨t3, List.mem_cons_of_mem _ ht3, hc3⟩))

theorem noTickNl_append (xs ys : List Char) :
    noTickNl (xs ++ ys) = (noTickNl xs && noTickNl ys) := by
  simp [noTickNl]

theorem noTickNl_of_plain (cs : List Char) (h : plainL cs = true) :
    noTickNl cs = true := by
  rw [noTickNl, List.all_eq_true]
  rw [plainL, List.all_eq_true] at h
  intro c hc
  have hn := plainChar_no c (h c hc)
  simp only [Bool.and_eq_true, Bool.not_eq_true', decide_eq_false_iff_not]
  exact ⟨hn.1, hn.2.1⟩

theorem noTickNl_quote (s : String) (h : plainL s.data = true) :
    noTickNl (quoteChars s) = true := by
  have h1 : quoteChars s = [dqC] ++ s.data ++ [dqC] := by simp [quoteChars]
  rw [h1, noTickNl_append, noTickNl_append, noTickNl_of_plain s.data h]
  decide

theorem noTickNl_items : ∀ tags : List String,
    (∀ t ∈ tags, plainL t.data = true) → noTickNl (itemsChars tags) = true := by
  intro tags
  induction tags with
  | nil => intro _; decide
  | cons t tl ih =>
    intro hp
    cases tl with
    | nil =>
      show noTickNl (quoteChars t) = true
      exact noTickNl_quote t (hp t (List.mem_cons_self _ _))
    | cons t2 tl2 =>
      have hsh0 : itemsChars (t :: t2 :: tl2) =
          quoteChars t ++ ',' :: ' ' :: itemsChars (t2 :: tl2) := rfl
      have hsh : itemsChars (t :: t2 :: tl2) =
          quoteChars t ++ [','] ++ [' '] ++ itemsChars (t2 :: tl2) := by
        rw [hsh0]; simp
      rw [hsh, noTickNl_append, noTickNl_append, noTickNl_append]
      rw [noTickNl_quote t (hp t (List.mem_cons_self _ _))]
      rw [ih fun x hx => hp x (List.mem_cons_of_mem _ hx)]
      decide

theorem noTickNl_sRec (tags : List String) (summary : String)
    (hp : ∀ t ∈ tags, plainL t.data = true) (hs : plainL summary.data = true) :
    noTickNl (serializeRecordChars tags summary) = true := by
  have h1 : serializeRecordChars tags summary =
      [lbraceC] ++ "\"tags\": [".data ++ itemsChars tags ++ "], \"summary\": ".data ++
        quoteChars summary ++ [rbraceC] := by
    simp [serializeRecordChars]
  rw [h1]
  rw [noTickNl_append, noTickNl_append, noTickNl_append, noTickNl_append,
    noTickNl_append]
  rw [noTickNl_items tags hp, noTickNl_quote summary hs]
  decide

theorem noTickNl_spec (cs : List Char) (h : noTickNl cs = true) :
    ∀ c ∈ cs, ¬(c = tickC) ∧ ¬(c = nlC) := by
  rw [noTickNl, List.all_eq_true] at h
  intro c hc
  have := h c hc
  simp only [Bool.and_eq_true, Bool.not_eq_true', decide_eq_false_iff_not] at this
  exact this

theorem stripStr_sandwich (pre mid post : List Char) (a b : Char)
    (ha : isPyWs a = false) (hb : isPyWs b = false) :
    stripStr (pre ++ (a :: (mid ++ [b])) ++ post) =
      pre.dropWhile isPyWs ++ (a :: (mid ++ [b])) ++
        (post.reverse.dropWhile isPyWs).reverse := by
  unfold stripStr
  have h1 : pre ++ (a :: (mid ++ [b])) ++ post =
      pre ++ a :: (mid ++ [b] ++ post) := by simp
  rw [h1, dropWhile_append_stop isPyWs pre a _ ha]
  have h2 : (pre.dropWhile isPyWs ++ a :: (mid ++ [b] ++ post)).reverse =
      post.reverse ++ b :: (mid.reverse ++ a :: (pre.dropWhile isPyWs).reverse) := by
    simp
  rw [h2, dropWhile_append_stop isPyWs post.reverse b _ hb]
  simp

theorem mem_of_mem_dropWhile (p : Char → Bool) (l : List Char) (c : Char)
    (hc : c ∈ l.dropWhile p) : c ∈ l := by
  induction l with
  | nil => exact absurd hc (by simp)
  | cons x xs ih =>
    rw [List.dropWhile_cons] at hc
    by_cases hx : p x
    · simp only [hx, if_true] at hc
      exact List.mem_cons_of_mem _ (ih hc)
    · simp only [hx, if_false] at hc
      exact hc

theorem sRec_shape (tags : List String) (summary : String) :
    serializeRecordChars tags summary =
      lbraceC :: (sRecMid tags summary ++ [rbraceC]) := rfl

theorem sRec_length_ge (tags : List String) (summary : String) :
    2 ≤ (serializeRecordChars tags summary).length := by
  rw [sRec_shape]
  simp

theorem extract_prose (tags : List String) (summary : String) (pre post : List Char)
    (hp : ∀ t ∈ tags, plainL t.data = true) (hs : plainL summary.data = true)
    (hpre : ∀ c ∈ pre, ¬(c = lbraceC) ∧ ¬(c = rbraceC) ∧ ¬(c = tickC))
    (hpost : ∀ c ∈ post, ¬(c = lbraceC) ∧ ¬(c = rbraceC) ∧ ¬(c = tickC)) :
    extract_json_from_text
        (String.mk (pre ++ serializeRecordChars tags summary ++ post)) =
      Except.ok (recordJ tags summary) := by
  have hdata : (String.mk (pre ++ serializeRecordChars tags summary ++ post)).data =
      pre ++ serializeRecordChars tags summary ++ post := rfl
  unfold extract_json_from_text
  rw [hdata]
  have hstrip : stripStr (pre ++ serializeRecordChars tags summary ++ post) =
      pre.dropWhile isPyWs ++ serializeRecordChars tags summary ++
        (post.reverse.dropWhile isPyWs).reverse := by
    rw [sRec_shape]
    exact stripStr_sandwich pre (sRecMid tags summary) post lbraceC rbraceC
      (by decide) (by decide)
  rw [hstrip]
  -- abbreviations
  set P := pre.dropWhile isPyWs with hP
  set Q := (post.reverse.dropWhile isPyWs).reverse with hQ
  have hPmem : ∀ c ∈ P, ¬(c = lbraceC) ∧ ¬(c = rbraceC) ∧ ¬(c = tickC) :=
    fun c hc => hpre c (mem_of_mem_dropWhile _ _ _ hc)
  have hQmem : ∀ c ∈ Q, ¬(c = lbraceC) ∧ ¬(c = rbraceC) ∧ ¬(c = tickC) := by
    intro c hc
    rw [hQ, List.mem_reverse] at hc
    exact hpost c (List.mem_reverse.mp (mem_of_mem_dropWhile _ _ _ hc))
  have hsmem := noTickNl_spec _ (noTickNl_sRec tags summary hp hs)
  -- strategy 1 is skipped: no backtick anywhere
  have htick : hasTriple (P ++ serializeRecordChars tags summary ++ Q) = false := by
    apply hasTriple_false
    intro c hc
    simp only [List.mem_append] at hc
    rcases hc with (h | h) | h
    · exact (hPmem c h).2.2
    · exact (hsmem c h).1
    · exact (hQmem c h).2.2
  unfold extractAt
  rw [htick]
  simp only [Bool.false_eq_true, if_false]
  -- strategy 2 finds the span
  have hfirst : firstIdx (· = lbraceC) (P ++ serializeRecordChars tags summary ++ Q) =
      some P.length := by
    have hsh2 : P ++ serializeRecordChars tags summary ++ Q =
        P ++ lbraceC :: (sRecMid tags summary ++ [rbraceC] ++ Q) := by
      rw [sRec_shape]; simp
    rw [hsh2]
    apply firstIdx_append
    · intro c hc
      simp [(hPmem c hc).1]
    · simp
  have hrev : (P ++ serializeRecordChars tags summary ++ Q).reverse =
      Q.reverse ++ rbraceC ::
        ((sRecMid tags summary).reverse ++ lbraceC :: P.reverse) := by
    rw [sRec_shape]
    simp
  have hlast : lastIdx (P ++ serializeRecordChars tags summary ++ Q) rbraceC =
      some ((P ++ serializeRecordChars tags summary ++ Q).length - 1 - Q.length) := by
    unfold lastIdx
    rw [hrev]
    rw [firstIdx_append _ _ _ _
      (fun c hc => by simp [(hQmem c (List.mem_reverse.mp hc)).2.1]) (by simp)]
    simp
  simp only [hfirst, hlast]
  have hlen : (P ++ serializeRecordChars tags summary ++ Q).length =
      P.length + (serializeRecordChars tags summary).length + Q.length := by
    simp [Nat.add_assoc]
  have hsl := sRec_length_ge tags summary
  rw [if_pos (show P.length <
    (P ++ serializeRecordChars tags summary ++ Q).length - 1 - Q.length by omega)]
  have he : (P ++ serializeRecordChars tags summary ++ Q).length - 1 - Q.length + 1 -
      P.length = (serializeRecordChars tags summary).length := by
    rw [hlen]; omega
  rw [he]
  have harr : P ++ serializeRecordChars tags summary ++ Q =
      P ++ (serializeRecordChars tags summary ++ Q) := by simp
  rw [harr, List.drop_left, List.take_left]
  rw [jsonLoads_record tags summary hp hs]

theorem extract_fenced (tags : List String) (summary : String) (lang : List Char)
    (hp : ∀ t ∈ tags, plainL t.data = true) (hs : plainL summary.data = true)
    (hlang : ∀ c ∈ lang, ¬(c = tickC) ∧ ¬(c = nlC)) :
    extract_json_from_text (String.mk
      (tickC :: tickC :: tickC ::
        (lang ++ nlC :: (serializeRecordChars tags summary ++
          nlC :: tickC :: tickC :: tickC :: [])))) =
      Except.ok (recordJ tags summary) := by
  have hsmem := noTickNl_spec _ (noTickNl_sRec tags summary hp hs)
  unfold extract_json_from_text
  have hdata : (String.mk (tickC :: tickC :: tickC ::
      (lang ++ nlC :: (serializeRecordChars tags summary ++
        nlC :: tickC :: tickC :: tickC :: [])))).data =
      tickC :: tickC :: tickC ::
        (lang ++ nlC :: (serializeRecordChars tags summary ++
          nlC :: tickC :: tickC :: tickC :: [])) := rfl
  rw [hdata]
  -- stripping is the identity here: backticks at both ends
  have hstrip : stripStr (tickC :: tickC :: tickC ::
      (lang ++ nlC :: (serializeRecordChars tags summary ++
        nlC :: tickC :: tickC :: tickC :: []))) =
      tickC :: tickC :: tickC ::
        (lang ++ nlC :: (serializeRecordChars tags summary ++
          nlC :: tickC :: tickC :: tickC :: [])) := by
    have hsh : tickC :: tickC :: tickC ::
        (lang ++ nlC :: (serializeRecordChars tags summary ++
          nlC :: tickC :: tickC :: tickC :: [])) =
        [] ++ (tickC :: ((tickC :: tickC ::
          (lang ++ nlC :: (serializeRecordChars tags summary ++
            nlC :: tickC :: tickC :: []))) ++ [tickC])) ++ [] := by
      simp
    rw [hsh, stripStr_sandwich [] _ [] tickC tickC (by decide) (by decide)]
    simp
  rw [hstrip]
  unfold extractAt
  have htrip : hasTriple (tickC :: tickC :: tickC ::
      (lang ++ nlC :: (serializeRecordChars tags summary ++
        nlC :: tickC :: tickC :: tickC :: []))) = true := by
    simp [hasTriple]
  rw [htrip]
  simp only [if_true]
  have hsplit : splitOnTicks (tickC :: tickC :: tickC ::
      (lang ++ nlC :: (serializeRecordChars tags summary ++
        nlC :: tickC :: tickC :: tickC :: []))) =
      [[], lang ++ nlC :: (serializeRecordChars tags summary ++ [nlC]), []] := by
    rw [splitOnTicks_first]
    have hsh2 : lang ++ nlC :: (serializeRecordChars tags summary ++
        nlC :: tickC :: tickC :: tickC :: []) =
        (lang ++ nlC :: (serializeRecordChars tags summary ++ [nlC])) ++
          tickC :: tickC :: tickC :: [] := by
      simp
    rw [hsh2, splitOnTicks_append _ [] ?hfree]
    case hfree =>
      intro c hc
      simp only [List.mem_append, List.mem_cons] at hc
      rcases hc with h | h | h
      · exact (hlang c h).1
      · subst h; decide
      · rcases h with h1 | h1 | h1
        · exact (hsmem c h1).1
        · subst h1; decide
        · exact absurd h1 (by simp)
    rfl
  rw [hsplit]
  simp only [List.tail_cons]
  have hnl : hasNl (lang ++ nlC :: (serializeRecordChars tags summary ++ [nlC])) = true := by
    simp [hasNl]
  have hdrop : dropThroughNl (lang ++ nlC :: (serializeRecordChars tags summary ++ [nlC])) =
      serializeRecordChars tags summary ++ [nlC] :=
    dropThroughNl_append lang (fun c hc => (hlang c hc).2) _
  have hcand : stripStr (serializeRecordChars tags summary ++ [nlC]) =
      serializeRecordChars tags summary := by
    have hsh3 : serializeRecordChars tags summary ++ [nlC] =
        [] ++ (lbraceC :: (sRecMid tags summary ++ [rbraceC])) ++ [nlC] := by
      rw [← sRec_shape]; simp
    rw [hsh3, stripStr_sandwich [] _ [nlC] lbraceC rbraceC (by decide) (by decide)]
    rw [← sRec_shape]
    have hnlws : isPyWs nlC = true := by decide
    simp [hnlws]
  have hloop : fencedLoop
      [lang ++ nlC :: (serializeRecordChars tags summary ++ [nlC]), []] =
      some (recordJ tags summary) := by
    simp only [fencedLoop, hnl, if_true, hdrop, hcand]
    rw [sRec_shape]
    simp only [if_pos rfl]
    rw [← sRec_shape, jsonLoads_record tags summary hp hs]
    simp
  rw [hloop]

set_option maxHeartbeats 1000000 in
/-- Claim C1: for every initial `WorkflowState` with `turn_count = 0` and every behaviour of the Planner and Reviewer stages (each stage returning an arbitrary value for its own state key — including a Reviewer that always reports issues), the loop driver terminates within `MAX_TURNS = 5` cycles, because the supervisor increments `turn_count` once per cycle and the router stops at the limit; and whenever the run is stopped by the turn limit (final `turn_count ≥ MAX_TURNS`), the final `review_status` is `"needs_revision"`. -/
theorem run_loop_gen_terminates (pB : WorkflowState → Proposal) (rB : WorkflowState → ReviewVerdict)
    (s0 : WorkflowState) (h0 : s0.turn_count = 0) :
    (run_loop_gen pB rB MAX_TURNS s0).2 = true ∧
    (MAX_TURNS ≤ (run_loop_gen pB rB MAX_TURNS s0).1.turn_count →
      review_status (run_loop_gen pB rB MAX_TURNS s0).1 = "needs_revision") := by
  obtain ⟨ti, co, p0, f0, tc⟩ := s0
  simp only [WorkflowState.turn_count] at h0
  subst h0
  cases p0 with
  | none =>
    cases f0 with
    | none =>
      simp only [run_loop_gen, supervisor_node, router_logic, MAX_TURNS]
      norm_num
      split_ifs with h1 <;> norm_num [review_status, h1]
    | some v =>
      simp only [run_loop_gen, supervisor_node, router_logic, MAX_TURNS]
      norm_num
      split_ifs with h1 <;> norm_num [review_status, h1]
  | some p =>
    cases f0 with
    | none =>
      simp only [run_loop_gen, supervisor_node, router_logic, MAX_TURNS]
      norm_num
      split_ifs with h1 <;> norm_num [review_status, h1]
    | some v =>
      simp only [run_loop_gen, supervisor_node, router_logic, MAX_TURNS]
      norm_num
      split_ifs with h1 <;> norm_num [review_status, h1]

/-- Witness for C1 at a concrete stage pair and the program's initial state. -/
theorem run_loop_gen_terminates_witness :
    (run_loop_gen (fun _ => fallbackProposal)
      (fun s => reviewer_node s.planner_proposal s.content "NO")
      MAX_TURNS (initialState "t" "c")).2 = true ∧
    review_status (run_loop_gen (fun _ => fallbackProposal)
      (fun s => reviewer_node s.planner_proposal s.content "NO")
      MAX_TURNS (initialState "t" "c")).1 = "needs_revision" :=
  ⟨(run_loop_gen_terminates _ _ _ rfl).1,
   (run_loop_gen_terminates _ _ _ rfl).2 (by decide)⟩

/-- Claim C2: the router's decision is exactly the specification's five-case
transition table, evaluated in order (turn limit, missing proposal, missing
review, review with issues, approval), and it is a pure function of the
state: identical states yield identical decisions. -/
theorem router_matches_spec_and_pure :
    (∀ s, router_logic s = router_spec s) ∧
    (∀ s t : WorkflowState, s = t → router_logic s = router_logic t) := by
  constructor
  · intro s
    unfold router_logic router_spec
    cases hp : s.planner_proposal <;> cases hf : s.reviewer_feedback <;> simp [hp, hf]
  · intro s t h
    rw [h]

/-- Witness for C2 at a concrete state. -/
theorem router_matches_spec_and_pure_witness :
    router_logic (initialState "t" "c") = router_spec (initialState "t" "c") ∧
    router_logic (initialState "t" "c") = router_logic (initialState "t" "c") :=
  ⟨router_matches_spec_and_pure.1 (initialState "t" "c"),
   router_matches_spec_and_pure.2 (initialState "t" "c") (initialState "t" "c") rfl⟩

/-- Counterexample to C3: on a record with no usable tags the normalizer pads
with the filler tag three times, so the final tags are not pairwise distinct
case-insensitively. -/
theorem finalize_output_not_case_insensitive_unique :
    ¬ List.Pairwise lowerDistinct (finalize_output []).tags := by
  intro h
  have : (finalize_output []).tags = ["general", "general", "general"] := rfl
  rw [this] at h
  rcases List.pairwise_cons.mp h with ⟨h1, _⟩
  exact h1 "general" (List.mem_cons_self _ _) rfl

/-- Claim C3 (amended): for every input record, `finalize_output` yields exactly
three tags, each non-empty; the cleaned tags (before padding) are pairwise
distinct case-insensitively — cleaning drops non-strings, trims, drops
empties and de-duplicates case-insensitively preserving first-seen order and
casing, then the list is truncated to three or right-padded with the filler
tag `"general"` — and when at least three tags survive cleaning (no padding
happens) the final three are pairwise distinct; padding, however, can repeat
the filler or collide with a cleaned `general` tag. -/
theorem finalize_output_tags_normalized (fields : List (String × JValue)) :
    (finalize_output fields).tags.length = 3 ∧
    (∀ t ∈ (finalize_output fields).tags, t ≠ "") ∧
    List.Pairwise lowerDistinct (clean_tags (dictGet fields "tags")) ∧
    (3 ≤ (clean_tags (dictGet fields "tags")).length →
      List.Pairwise lowerDistinct (finalize_output fields).tags) := by
  have hpw : List.Pairwise lowerDistinct (clean_tags (dictGet fields "tags")) := by
    unfold clean_tags
    cases dictGet fields "tags" with
    | none => exact List.Pairwise.nil
    | some v =>
      cases v with
      | arr xs => exact cleanTagsGo_pairwise xs [] [] (by simp) List.Pairwise.nil
      | null => exact List.Pairwise.nil
      | bool b => exact List.Pairwise.nil
      | num r => exact List.Pairwise.nil
      | str s => exact List.Pairwise.nil
      | obj l => exact List.Pairwise.nil
  refine ⟨finalizeTags_length _, ?_, hpw, ?_⟩
  · intro t ht
    rcases finalizeTags_mem _ _ ht with h | h
    · revert h
      unfold clean_tags
      cases dictGet fields "tags" with
      | none => intro h; simp at h
      | some v =>
        cases v with
        | arr xs => exact fun h => cleanTagsGo_ne_empty xs [] [] (by simp) t h
        | null => intro h; simp at h
        | bool b => intro h; simp at h
        | num r => intro h; simp at h
        | str s => intro h; simp at h
        | obj l => intro h; simp at h
    · rw [h]; intro hc; exact absurd hc (by decide)
  · intro hlen
    show List.Pairwise lowerDistinct (finalizeTags (clean_tags (dictGet fields "tags")))
    rw [finalizeTags_of_ge _ hlen]
    exact hpw.sublist (List.take_sublist _ _)

/-- Witness for C3 on a record with four clean tags (no padding). -/
theorem finalize_output_tags_normalized_witness :
    List.Pairwise lowerDistinct (finalize_output
      [("tags", JValue.arr [JValue.str "alpha", JValue.str "beta",
        JValue.str "gamma", JValue.str "delta"])]).tags ∧
    (finalize_output
      [("tags", JValue.arr [JValue.str "alpha", JValue.str "beta",
        JValue.str "gamma", JValue.str "delta"])]).tags.length = 3 :=
  ⟨(finalize_output_tags_normalized _).2.2.2 (by decide),
   (finalize_output_tags_normalized _).1⟩

/-- Claim C4 (code bug): `finalize_output` documents that it strictly enforces a
25-word summary, but it passes the summary through unchanged: on a record
whose summary has 26 words the returned summary still has 26 words.  The
`planner_node` normalization of Part3 does truncate the same summary to its
first 25 words rather than dropping it. -/
theorem finalize_output_summary_unbounded :
    (finalize_output c4_record).summary = some (JValue.str c4_long_summary) ∧
    word_count c4_long_summary = 26 ∧
    word_count (plannerTruncate c4_long_summary) = 25 := by
  refine ⟨rfl, by decide, by decide⟩

/-- Claim C5: `extract_json_from_text` equals the specification's extractor:
the fenced-block, brace-span and loose-regex strategies are tried in that
fixed order on the stripped text, the first success is returned, the
loose-regex strategy succeeds only when both a non-empty tag list and a
non-empty summary are found, and when all strategies fail the result is an
extraction failure whose message carries the offending text. -/
theorem extract_matches_strategy_order (text : String) : extract_json_from_text text = extract_spec text := by
  unfold extract_json_from_text extractAt extract_spec
  simp only [fencedStrategy, braceSpanStrategy, looseRegexStrategy]
  cases h1 : (if hasTriple (stripStr text.data) then
      fencedLoop (splitOnTicks (stripStr text.data)).tail else none) with
  | some v => simp [h1, Option.orElse]
  | none =>
    cases h2 : (match firstIdx (· = lbraceC) (stripStr text.data),
        lastIdx (stripStr text.data) rbraceC with
      | some b, some e =>
        if b < e then
          jsonLoads (((stripStr text.data).drop b).take (e + 1 - b)) else none
      | _, _ => none) with
    | some v => simp [h1, h2, Option.orElse]
    | none =>
      simp only [h1, h2, Option.orElse]
      split_ifs with h3 <;> rfl

/-- Claim C6: round-trip — a record with tags and summary serialized as strict
JSON (the `json.dumps` layout), as JSON inside a markdown fence with an
optional language-tag line, or as JSON embedded in surrounding prose, is
recovered by `extract_json_from_text` with identical tags and summary.  The
hypotheses say the strings are plain (printable ASCII without quote,
backslash or backtick), the language tag has no newline or backtick, and the
prose contains no brace or backtick — the conditions under which the JSON is
recoverable at all. -/
theorem extract_roundtrip (tags : List String) (summary : String)
    (lang pre post : List Char)
    (hp : ∀ t ∈ tags, plainL t.data = true) (hs : plainL summary.data = true)
    (hlang : ∀ c ∈ lang, ¬(c = tickC) ∧ ¬(c = nlC))
    (hpre : ∀ c ∈ pre, ¬(c = lbraceC) ∧ ¬(c = rbraceC) ∧ ¬(c = tickC))
    (hpost : ∀ c ∈ post, ¬(c = lbraceC) ∧ ¬(c = rbraceC) ∧ ¬(c = tickC)) :
    extract_json_from_text (serializeRecord tags summary) =
      Except.ok (recordJ tags summary) ∧
    extract_json_from_text (fenceWrap lang (serializeRecord tags summary)) =
      Except.ok (recordJ tags summary) ∧
    extract_json_from_text (proseWrap pre post (serializeRecord tags summary)) =
      Except.ok (recordJ tags summary) := by
  refine ⟨?_, ?_, ?_⟩
  · have h := extract_prose tags summary [] [] hp hs (by simp) (by simp)
    have he : String.mk ([] ++ serializeRecordChars tags summary ++ []) =
        serializeRecord tags summary := by
      simp [serializeRecord]
    rwa [he] at h
  · exact extract_fenced tags summary lang hp hs hlang
  · exact extract_prose tags summary pre post hp hs hpre hpost

/-- Witness for C6 at a concrete record, fence and prose. -/
theorem extract_roundtrip_witness :
    extract_json_from_text (serializeRecord ["ml", "ai"] "A fine day") =
      Except.ok (recordJ ["ml", "ai"] "A fine day") ∧
    extract_json_from_text
        (fenceWrap "json".data (serializeRecord ["ml", "ai"] "A fine day")) =
      Except.ok (recordJ ["ml", "ai"] "A fine day") ∧
    extract_json_from_text
        (proseWrap "Here is the JSON: ".data " -- done.".data
          (serializeRecord ["ml", "ai"] "A fine day")) =
      Except.ok (recordJ ["ml", "ai"] "A fine day") :=
  extract_roundtrip ["ml", "ai"] "A fine day" "json".data "Here is the JSON: ".data
    " -- done.".data (by decide) (by decide) (by decide) (by decide) (by decide)

/-- Claim C7: for every Proposal presented to the Reviewer, the verdict has
`has_issues = true` whenever any validation rule is violated or the
forced-test flag is set (the flag is hard-coded on, so `has_issues` is in
fact always true); the issues text is the aggregation of all violated rules
joined with `"; "` plus the forced issue, with no short-circuiting; and a
proposal whose tag count differs from three — for example two tags —
contributes the tag-count message. -/
theorem reviewer_verdict_aggregates (tags : List String)
    (summary content resp : String) :
    (reviewer_node (some { tags := tags, summary := summary })
      content resp).has_issues = true ∧
    (reviewer_node (some { tags := tags, summary := summary }) content resp).issues =
      some ("; ".intercalate (reviewerIssues tags summary ++ [forced_issue_msg])) ∧
    (tags.length ≠ 3 → tag_count_msg tags.length ∈ reviewerIssues tags summary) := by
  refine ⟨reviewer_node_has_issues _ _ _, ?_, ?_⟩
  · simp [reviewer_node]
  · intro h
    simp [reviewerIssues, h]

/-- Witness for C7 on a two-tag proposal. -/
theorem reviewer_verdict_aggregates_witness :
    (reviewer_node (some { tags := ["a", "b"], summary := "Short and fine." })
      "body" "YES").has_issues = true ∧
    tag_count_msg 2 ∈ reviewerIssues ["a", "b"] "Short and fine." :=
  ⟨(reviewer_verdict_aggregates ["a", "b"] "Short and fine." "body" "YES").1,
   (reviewer_verdict_aggregates ["a", "b"] "Short and fine." "body" "YES").2.2
     (by decide)⟩

/-- Claim C8: when extraction fails on the model text, the Planner does not fail
the workflow: it returns the fixed safe-default Proposal (three placeholder
tags, a one-word summary), so the loop has a Proposal to route on, and the
router then dispatches to the Reviewer. -/
theorem planner_fallback_on_parse_failure (text e title content : String)
    (h : extract_json_from_text text = Except.error e) :
    planner_result text = fallbackProposal ∧
    router_logic (WorkflowState.mk title content (some fallbackProposal) none 2) =
      Route.reviewer := by
  constructor
  · unfold planner_result
    rw [h]
  · rfl

/-- Witness for C8 on unparseable model text. -/
theorem planner_fallback_on_parse_failure_witness :
    planner_result "Sorry, I cannot help with that." = fallbackProposal ∧
    router_logic (WorkflowState.mk "t" "c" (some fallbackProposal) none 2) =
      Route.reviewer :=
  planner_fallback_on_parse_failure "Sorry, I cannot help with that."
    ("Could not parse JSON from LLM output:\nSorry, I cannot help with that.")
    "t" "c" (by rfl)

/-- Claim C9: noninterference of the semantic relevance check — for every
state containing a Proposal and any two model responses to the YES/NO
relevance query, the Reviewer's verdict (both `has_issues` and the issues
text) is identical: the response is computed but used nowhere. -/
theorem reviewer_relevance_noninterference (p : Proposal) (content r1 r2 : String) :
    reviewer_node (some p) content r1 = reviewer_node (some p) content r2 := rfl

/-- Claim C10: as the code is written, the forced-test flag in the Reviewer is
unconditionally enabled, so for every state containing a Proposal the
Reviewer returns `has_issues = true`; consequently every workflow run from
the program's initial state terminates via the turn limit at exactly five
turns and the final `review_status` is always `"needs_revision"`, never
`"approved"` — for every behaviour of the model oracles. -/
theorem forced_issue_always_needs_revision (pf rf : WorkflowState → String)
    (title content : String) :
    (∀ (p : Proposal) (c r : String),
      (reviewer_node (some p) c r).has_issues = true) ∧
    (run_loop pf rf MAX_TURNS (initialState title content)).2 = true ∧
    (run_loop pf rf MAX_TURNS (initialState title content)).1.turn_count = 5 ∧
    review_status (run_loop pf rf MAX_TURNS (initialState title content)).1 =
      "needs_revision" :=
  And.intro (fun p c r => reviewer_node_has_issues (some p) c r)
    (by
      unfold run_loop MAX_TURNS initialState
      simp only [run_loop_gen, supervisor_node, router_logic, MAX_TURNS]
      norm_num [reviewer_node_has_issues, review_status])
